import Mathlib

/-!
Shallow embedding of `main.py` from the `executive_order_analysis` repository.

Dates are modelled as integers (day numbers): all dates in the program are
midnight `datetime` values parsed from day-level strings, so Python's
`(d2 - d1).days` is exactly integer subtraction of day numbers.  The external
clock reading `datetime.now()` is modelled as an integer parameter `now`
(the day-level reading used by `(now - start).days`).

Python's `//` is floor division, embedded as `Int.fdiv`.  Python's list
indexing `xs[i]` wraps negative indices (`xs[i]` is `xs[len + i]` for
`-len <= i < 0`) and raises `IndexError` otherwise; this is `pyGet` below,
with `none` standing for the raised exception.

The binary-search loop of `find_inauguration` is embedded with an explicit
iteration budget (`fuel`); exhausting the budget yields the distinguished
result `LoopRes.timeout`, so that termination of the Python `while` loop is a
provable statement rather than an assumption.  `find_inauguration` supplies
the budget `arr.length + 1`, which is proved sufficient (the inclusive search
window shrinks strictly on every iteration).
-/

/-- One row of the interval table: mirrors the `Inauguration` dataclass of
`main.py` (`president`, `term`, `term_end_days`, `date`). -/
structure Inauguration where
  president : String
  term : Nat
  term_end_days : Int
  date : Int
deriving DecidableEq, Repr

instance : Inhabited Inauguration := ⟨⟨"", 0, 0, 0⟩⟩

/-- Constructor `Inauguration.new` from `main.py`: term and end-days start at 0. -/
def Inauguration.new (president : String) (date : Int) : Inauguration :=
  ⟨president, 0, 0, date⟩

/-- Constant `ONE_YEAR_IN_DAYS = 365` from `main.py`. -/
def ONE_YEAR_IN_DAYS : Nat := 365

/-- Python list indexing `arr[i]`: negative indices wrap by adding the
length; an index out of range (after wrapping) raises `IndexError`,
modelled as `none`. -/
def pyGet (arr : List Inauguration) (i : Int) : Option Inauguration :=
  if 0 ≤ i then arr.get? i.toNat
  else if 0 ≤ i + arr.length then arr.get? (i + arr.length).toNat
  else none

/-- Result of the `while` loop of `find_inauguration`:
either the loop hit an exact date match and returned that row (`found`),
or the loop condition failed and control fell through with the final values
of `start`, `end`, `index` (`exit`), or an `IndexError` was raised reading
`sorted_inaugurations[index]` (`err`), or the iteration budget ran out
(`timeout`, modelling a non-terminating loop). -/
inductive LoopRes where
  | found (x : Inauguration)
  | exit (s e idx : Int)
  | err
  | timeout
deriving DecidableEq, Repr

/-- The `while index >= start and index <= end` loop of `find_inauguration`
(lines 45-52 of `main.py`), with state `(start, end, index)` embedded as
`(s, e, idx)` and an explicit iteration budget. -/
def findLoop (arr : List Inauguration) (date : Int) : Nat → Int → Int → Int → LoopRes
  | 0, _, _, _ => .timeout
  | fuel + 1, s, e, idx =>
    if s ≤ idx ∧ idx ≤ e then
      match pyGet arr idx with
      | none => .err
      | some x =>
        if date < x.date then
          findLoop arr date fuel s (idx - 1) (s + Int.fdiv (idx - 1 - s) 2)
        else if x.date < date then
          findLoop arr date fuel (idx + 1) e ((idx + 1) + Int.fdiv (e - (idx + 1)) 2)
        else .found x
    else .exit s e idx

/-- Function `find_inauguration` from `main.py` (lines 40-57): binary search for the
interval covering `date`.  Initial state: `index = len // 2`, `start = 0`,
`end = len - 1`.  After the loop, if `end - start <= 1` the element at the
final `index` is returned (with Python's wrapping indexing), otherwise an
`IndexError` is raised (`none`).  `none` also stands for the budget running
out, which `findLoop_no_timeout` below proves never happens. -/
def find_inauguration (arr : List Inauguration) (date : Int) : Option Inauguration :=
  match findLoop arr date (arr.length + 1) 0 ((arr.length : Int) - 1)
      (Int.fdiv (arr.length : Int) 2) with
  | .found x => some x
  | .exit s e idx => if e - s ≤ 1 then pyGet arr idx else none
  | .err => none
  | .timeout => none

/-- The inner loop of the series construction (lines 176-181 of `main.py`):
`for i in range(365): if i > term_end_days: break;
total += freq.get(i, 0); datapoints.append(total)`.
`steps` counts the remaining iterations of `range`, `i` is the current
offset and `total` the running sum. -/
def buildSeriesAux (freq : Nat → Nat) (termEndDays : Int) :
    Nat → Nat → Nat → List Nat
  | 0, _, _ => []
  | steps + 1, i, total =>
    if termEndDays < (i : Int) then []
    else
      (total + freq i) :: buildSeriesAux freq termEndDays steps (i + 1) (total + freq i)

/-- The cumulative series built for one term (the `datapoints[term]` list):
run the inner loop from offset 0 with running total 0 over
`range(ONE_YEAR_IN_DAYS)`. -/
def buildSeries (freq : Nat → Nat) (termEndDays : Int) : List Nat :=
  buildSeriesAux freq termEndDays ONE_YEAR_IN_DAYS 0 0

/-- Ordinal assignment (lines 121-124 of `main.py`): walk the sorted list
with a per-president running counter (`seen_count`) and store the counter in
the `term` field. -/
def assignTermsAux (seen : String → Nat) : List Inauguration → List Inauguration
  | [] => []
  | x :: xs =>
    let c := seen x.president + 1
    { x with term := c } ::
      assignTermsAux (fun p => if p = x.president then c else seen p) xs

/-- Ordinal assignment starting from an all-zero `seen_count` (the
`defaultdict(int)`). -/
def assignTerms (l : List Inauguration) : List Inauguration :=
  assignTermsAux (fun _ => 0) l

/-- Table construction (lines 113-124 of `main.py`): build one row per
(president, date) pair, sort ascending by date (Python's `list.sort` is
stable; `List.insertionSort` with the non-strict key comparison is likewise
stable), then assign per-president ordinals. -/
def buildTable (l : List (String × Int)) : List Inauguration :=
  assignTerms
    (List.insertionSort (fun a b => a.date ≤ b.date)
      (l.map (fun p => Inauguration.new p.1 p.2)))

/-- The three `continue` filters of the loop at lines 147-155 of `main.py`:
skip intervals before the earliest order date, before `--start-date`
(when given), or at/after `--end-date` (when given).  `true` means the
interval is kept. -/
def passesFilters (earliest : Int) (sd ed : Option Int) (x : Inauguration) : Bool :=
  !decide (x.date < earliest) &&
    (match sd with
     | none => true
     | some s => !decide (x.date < s)) &&
    (match ed with
     | none => true
     | some e => decide (x.date < e))

/-- The `term_end_days` assignment for row `i` (lines 157-160 of `main.py`):
days to the next row's start, or to `now` for the last row. -/
def assignOne (now : Int) (table : List Inauguration) (i : Nat)
    (x : Inauguration) : Inauguration :=
  match table.get? (i + 1) with
  | some y => { x with term_end_days := y.date - x.date }
  | none => { x with term_end_days := now - x.date }

/-- Mapping in the style of `for i, x in enumerate(l)`, with the running
index made explicit. -/
def mapWithIndex (f : Nat → Inauguration → Inauguration) :
    Nat → List Inauguration → List Inauguration
  | _, [] => []
  | i, x :: xs => f i x :: mapWithIndex f (i + 1) xs

/-- The loop at lines 147-164 of `main.py`, restricted to its effect on the
table rows: every row passing the filters gets its `term_end_days` set by
adjacency (or from `now` for the last row); skipped rows are left
untouched. -/
def assignTermEnds (now earliest : Int) (sd ed : Option Int)
    (table : List Inauguration) : List Inauguration :=
  mapWithIndex
    (fun i x => if passesFilters earliest sd ed x then assignOne now table i x else x)
    0 table

/-- Key string built at lines 139/162 of `main.py`: the president's name,
the literal " term ", and the ordinal. -/
def termKey (x : Inauguration) : String :=
  x.president ++ " term " ++ toString x.term

/-- The rows surviving the filters, in table order (the rows backing
`sorted_terms` / `inaugurations_by_term`), with their `term_end_days`
assigned. -/
def filteredTable (now earliest : Int) (sd ed : Option Int)
    (table : List Inauguration) : List Inauguration :=
  (assignTermEnds now earliest sd ed table).filter (passesFilters earliest sd ed)

/-- List `sorted_terms` from `main.py`: the term keys of the surviving rows,
in table order. -/
def termList (now earliest : Int) (sd ed : Option Int)
    (table : List Inauguration) : List String :=
  (filteredTable now earliest sd ed table).map termKey

/-- List `table_data` from `main.py` (lines 166-168): one `(term, count)` row per
entry of `sorted_terms`, the count taken from the per-term document tally
(`len(by_term[term])`, abstracted as `counts`). -/
def tableData (counts : String → Nat) (now earliest : Int) (sd ed : Option Int)
    (table : List Inauguration) : List (String × Nat) :=
  (termList now earliest sd ed table).map (fun k => (k, counts k))

/-- The `datapoints` construction (lines 170-181 of `main.py`): for each
term of `sorted_terms` not excluded by `--only-terms`, the cumulative
series built from that term's day-offset frequency table (`freq`, the
`president_per_day` tally) and its `term_end_days`.  Term keys are distinct
across rows after ordinal assignment, so indexing `inaugurations_by_term`
by key is the same as using the row itself. -/
def seriesList (freq : String → Nat → Nat) (onlyTerms : Option (List String))
    (now earliest : Int) (sd ed : Option Int)
    (table : List Inauguration) : List (String × List Nat) :=
  ((filteredTable now earliest sd ed table).filter
      (fun x =>
        match onlyTerms with
        | none => true
        | some ts => decide (termKey x ∈ ts))).map
    (fun x => (termKey x, buildSeries (freq (termKey x)) x.term_end_days))

/-- One update of the `earliest_order_date` tracking (lines 132-133 of
`main.py`): replace the current earliest when it is `None` or later than the
document being scanned. -/
def minDateStep (acc : Option Int) (d : Int) : Option Int :=
  match acc with
  | none => some d
  | some m => if d < m then some d else some m

/-- Tracking of `earliest_order_date` over the whole document scan
(lines 127-133 of `main.py`): starts as `None`, updated per document. -/
def minDate (docs : List Int) : Option Int :=
  docs.foldl minDateStep none

/-- Row of the table at index `j` (with a default row out of range), used to
phrase binary-search invariants without dependent indices. -/
def dAt (arr : List Inauguration) (j : Nat) : Inauguration :=
  arr.getD j default

/-- Binary-search invariant: every row strictly left of position `s` starts
strictly before `date`. -/
def belowLT (arr : List Inauguration) (date : Int) (s : Int) : Prop :=
  ∀ j : Nat, j < arr.length → (j : Int) < s → (dAt arr j).date < date

/-- Binary-search invariant: every row strictly right of position `e` starts
strictly after `date`. -/
def aboveGT (arr : List Inauguration) (date : Int) (e : Int) : Prop :=
  ∀ j : Nat, j < arr.length → e < (j : Int) → date < (dAt arr j).date

example : find_inauguration [⟨"A", 1, 0, 10⟩, ⟨"B", 1, 0, 20⟩] 15 =
    some ⟨"A", 1, 0, 10⟩ := by decide

example : find_inauguration [⟨"A", 1, 0, 10⟩, ⟨"B", 1, 0, 20⟩] 20 =
    some ⟨"B", 1, 0, 20⟩ := by decide

example : find_inauguration [⟨"A", 1, 0, 10⟩, ⟨"B", 1, 0, 20⟩] 5 =
    some ⟨"B", 1, 0, 20⟩ := by decide

example : buildSeries (fun i => if i = 0 then 2 else if i = 5 then 1 else 0) 10 =
    [2, 2, 2, 2, 2, 3, 3, 3, 3, 3, 3] := by decide

example : buildTable [("A", 2017), ("B", 2021), ("A", 2025)] =
    [⟨"A", 1, 0, 2017⟩, ⟨"B", 1, 0, 2021⟩, ⟨"A", 2, 0, 2025⟩] := by decide

section SeriesLemmas

theorem buildSeriesAux_succ (freq : Nat → Nat) (e : Int) (steps i total : Nat) :
    buildSeriesAux freq e (steps + 1) i total =
      if e < (i : Int) then []
      else (total + freq i) :: buildSeriesAux freq e steps (i + 1) (total + freq i) := by
  rfl

theorem buildSeriesAux_chain (freq : Nat → Nat) (e : Int) :
    ∀ (steps i total : Nat),
      List.Chain (· ≤ ·) total (buildSeriesAux freq e steps i total) := by
  intro steps
  induction steps with
  | zero => intro i total; exact List.Chain.nil
  | succ steps ih =>
    intro i total
    rw [buildSeriesAux_succ]
    by_cases h : e < (i : Int)
    · rw [if_pos h]; exact List.Chain.nil
    · rw [if_neg h]
      exact List.Chain.cons (Nat.le_add_right _ _) (ih (i + 1) (total + freq i))

theorem buildSeriesAux_length (freq : Nat → Nat) (e : Int) :
    ∀ (steps i total : Nat),
      (buildSeriesAux freq e steps i total).length = min steps (e - (i : Int) + 1).toNat := by
  intro steps
  induction steps with
  | zero => intro i total; simp [buildSeriesAux]
  | succ steps ih =>
    intro i total
    rw [buildSeriesAux_succ]
    by_cases h : e < (i : Int)
    · rw [if_pos h]
      have : (e - (i : Int) + 1).toNat = 0 := by omega
      simp [this]
    · rw [if_neg h]
      simp only [List.length_cons, ih (i + 1) (total + freq i)]
      push_cast
      omega

theorem buildSeriesAux_get? (freq : Nat → Nat) (e : Int) :
    ∀ (steps i total j : Nat), j < (buildSeriesAux freq e steps i total).length →
      (buildSeriesAux freq e steps i total).get? j
        = some (total + ∑ k in Finset.range (j + 1), freq (i + k)) := by
  intro steps
  induction steps with
  | zero => intro i total j hj; simp [buildSeriesAux] at hj
  | succ steps ih =>
    intro i total j hj
    rw [buildSeriesAux_succ] at hj ⊢
    by_cases h : e < (i : Int)
    · rw [if_pos h] at hj; simp at hj
    · rw [if_neg h] at hj ⊢
      match j with
      | 0 => simp
      | j + 1 =>
        simp only [List.get?_cons_succ]
        rw [ih (i + 1) (total + freq i) j (by simpa using hj)]
        have h3 : ∑ k in Finset.range (j + 1 + 1), freq (i + k)
            = ∑ k in Finset.range (j + 1), freq (i + 1 + k) + freq i := by
          rw [Finset.sum_range_succ']
          congr 1
          exact Finset.sum_congr rfl (fun k _ => by congr 1; omega)
        rw [h3]
        congr 1
        ring

/-- C6: the cumulative series is monotonically non-decreasing: each entry is
at least the previous one.  Counts are modelled as naturals, so they are
non-negative by construction. -/
theorem series_monotone (freq : Nat → Nat) (termEndDays : Int) :
    (buildSeries freq termEndDays).Chain' (· ≤ ·) := by
  have h := buildSeriesAux_chain freq termEndDays ONE_YEAR_IN_DAYS 0 0
  have h' : List.Chain' (· ≤ ·) ((0 : Nat) :: buildSeriesAux freq termEndDays ONE_YEAR_IN_DAYS 0 0) := h
  exact h'.tail

/-- C3 counterexample: for an interval whose `term_end_days` is 365 (not
less than the horizon), the series has 365 entries, not
`min figure(horizon, end) + 1 = 366`: the loop `for i in range(365)` never
produces offset 365 even though `365 > term_end_days` is false there. -/
theorem series_length_counterexample :
    (buildSeries (fun _ => 0) 365).length = 365 ∧
      min ONE_YEAR_IN_DAYS (Int.toNat 365) + 1 = 366 := by
  constructor
  · unfold buildSeries
    rw [buildSeriesAux_length, ONE_YEAR_IN_DAYS]
    decide
  · decide

/-- C3 amended: with horizon `ONE_YEAR_IN_DAYS = 365`, the series for an
interval with `0 ≤ term_end_days` has exactly
`min (365 - 1) term_end_days + 1` entries (one per day-offset from `0` up to
`min 364 term_end_days` inclusive), and the entry at offset `j` is the sum
of the frequency-table counts at offsets `0..j`, missing offsets counting
zero but still producing an entry. -/
theorem series_length_amended (freq : Nat → Nat) (termEndDays : Int)
    (he : 0 ≤ termEndDays) :
    (buildSeries freq termEndDays).length = (min 364 termEndDays).toNat + 1 ∧
      ∀ (j : Nat) (hj : j < (buildSeries freq termEndDays).length),
        (buildSeries freq termEndDays).get ⟨j, hj⟩
          = ∑ k in Finset.range (j + 1), freq k := by
  constructor
  · unfold buildSeries
    rw [buildSeriesAux_length, ONE_YEAR_IN_DAYS]
    omega
  · intro j hj
    have h1 : (buildSeries freq termEndDays).get? j
        = some ((buildSeries freq termEndDays).get ⟨j, hj⟩) := List.get?_eq_get hj
    have h2 := buildSeriesAux_get? freq termEndDays ONE_YEAR_IN_DAYS 0 0 j hj
    rw [show buildSeriesAux freq termEndDays ONE_YEAR_IN_DAYS 0 0
        = buildSeries freq termEndDays from rfl] at h2
    rw [h1] at h2
    simpa using h2

theorem series_length_amended_witness :
    (buildSeries (fun k => k) 10).length = (min 364 (10 : Int)).toNat + 1 ∧
      ∀ (j : Nat) (hj : j < (buildSeries (fun k => k) 10).length),
        (buildSeries (fun k => k) 10).get ⟨j, hj⟩
          = ∑ k in Finset.range (j + 1), k :=
  series_length_amended (fun k => k) 10 (by decide)

end SeriesLemmas

section TableLemmas

theorem assignTermsAux_map_pd :
    ∀ (seen : String → Nat) (l : List Inauguration),
      (assignTermsAux seen l).map (fun x => (x.president, x.date))
        = l.map (fun x => (x.president, x.date)) := by
  intro seen l
  induction l generalizing seen with
  | nil => rfl
  | cons x xs ih => simp [assignTermsAux, ih]

theorem assignTermsAux_map_date :
    ∀ (seen : String → Nat) (l : List Inauguration),
      (assignTermsAux seen l).map (fun x => x.date) = l.map (fun x => x.date) := by
  intro seen l
  induction l generalizing seen with
  | nil => rfl
  | cons x xs ih => simp [assignTermsAux, ih]

theorem assignTermsAux_filter_term (p : String) :
    ∀ (seen : String → Nat) (l : List Inauguration),
      ((assignTermsAux seen l).filter (fun x => x.president == p)).map (fun x => x.term)
        = List.range' (seen p + 1) (l.countP (fun x => x.president == p)) := by
  intro seen l
  induction l generalizing seen with
  | nil => rfl
  | cons x xs ih =>
    rw [assignTermsAux]
    by_cases hp : x.president = p
    · subst hp
      simp only [List.filter_cons, List.countP_cons]
      rw [if_pos (by simp : (x.president == x.president) = true)]
      simp only [List.map_cons]
      rw [ih]
      simp [List.range'_succ]
    · simp only [List.filter_cons, List.countP_cons]
      have hb : (x.president == p) = false := by simp [hp]
      rw [if_neg (by simp [hb])]
      rw [ih]
      rw [if_neg (fun h => hp h.symm)]
      simp [hb]

theorem buildTable_length (l : List (String × Int)) :
    (buildTable l).length = l.length := by
  unfold buildTable assignTerms
  have h1 := congrArg List.length (assignTermsAux_map_pd (fun _ => 0)
    (List.insertionSort (fun a b => a.date ≤ b.date)
      (l.map (fun p => Inauguration.new p.1 p.2))))
  simp only [List.length_map] at h1
  rw [h1]
  rw [(List.perm_insertionSort (fun a b => a.date ≤ b.date)
    (l.map (fun p => Inauguration.new p.1 p.2))).length_eq]
  simp

/-- C8 counterexample: a reference source with two intervals sharing a start
date.  Table construction does not fail: it returns the full two-row table
(ordinals assigned by position), so there is no fail-fast `MalformedInterval`
error and a complete table is produced. -/
theorem duplicate_start_counterexample :
    buildTable [("A", 100), ("B", 100)]
      = [⟨"A", 1, 0, 100⟩, ⟨"B", 1, 0, 100⟩] := by decide

/-- C8 amended: table construction never fails, duplicate starts included:
for every input (also with duplicate start dates) it returns a complete
table with exactly one row per input pair, carrying the input's labels and
dates. -/
theorem duplicate_start_amended (l : List (String × Int)) :
    (buildTable l).length = l.length ∧
      ((buildTable l).map (fun x => (x.president, x.date))).Perm l := by
  refine ⟨buildTable_length l, ?_⟩
  unfold buildTable assignTerms
  rw [assignTermsAux_map_pd]
  have h1 : ((List.insertionSort (fun a b => a.date ≤ b.date)
      (l.map (fun p => Inauguration.new p.1 p.2))).map
        (fun x => (x.president, x.date))).Perm
      ((l.map (fun p => Inauguration.new p.1 p.2)).map (fun x => (x.president, x.date))) :=
    (List.perm_insertionSort _ _).map _
  refine h1.trans ?_
  rw [List.map_map]
  have h2 : ((fun x : Inauguration => (x.president, x.date)) ∘
      (fun p : String × Int => Inauguration.new p.1 p.2)) = fun p => (p.1, p.2) := rfl
  rw [h2]
  simp

end TableLemmas

section OrdinalLemmas

instance : IsTotal Inauguration (fun a b => a.date ≤ b.date) :=
  ⟨fun a b => le_total a.date b.date⟩

instance : IsTrans Inauguration (fun a b => a.date ≤ b.date) :=
  ⟨fun _ _ _ h1 h2 => le_trans h1 h2⟩

instance : IsAntisymm Inauguration (fun a b => a.date < b.date) :=
  ⟨fun _ _ h1 h2 => absurd h1 (asymm h2)⟩

theorem assignTermsAux_pairwise (R : Int → Int → Prop) (seen : String → Nat)
    (l : List Inauguration) (h : List.Pairwise (fun a b => R a.date b.date) l) :
    List.Pairwise (fun a b => R a.date b.date) (assignTermsAux seen l) := by
  rw [← List.pairwise_map (f := fun x : Inauguration => x.date)] at h ⊢
  rw [assignTermsAux_map_date]
  exact h

theorem pairwise_lt_of_le_nodup (l : List Inauguration)
    (hle : List.Pairwise (fun a b => a.date ≤ b.date) l)
    (hnd : (l.map (fun x => x.date)).Nodup) :
    List.Pairwise (fun a b => a.date < b.date) l := by
  have hne : List.Pairwise (fun a b : Inauguration => a.date ≠ b.date) l :=
    List.pairwise_map.mp hnd
  exact (hle.and hne).imp (fun h => lt_of_le_of_ne h.1 h.2)

theorem buildTable_sorted (l : List (String × Int)) :
    List.Pairwise (fun a b => a.date ≤ b.date) (buildTable l) := by
  unfold buildTable assignTerms
  have hs := List.sorted_insertionSort (fun a b : Inauguration => a.date ≤ b.date)
    (l.map (fun p => Inauguration.new p.1 p.2))
  exact assignTermsAux_pairwise (· ≤ ·) _ _ hs

theorem buildTable_perm_eq (l l' : List (String × Int))
    (hnodup : (l.map Prod.snd).Nodup) (hperm : l'.Perm l) :
    buildTable l' = buildTable l := by
  unfold buildTable assignTerms
  congr 1
  have hp : (List.insertionSort (fun a b => a.date ≤ b.date)
        (l'.map (fun p => Inauguration.new p.1 p.2))).Perm
      (List.insertionSort (fun a b => a.date ≤ b.date)
        (l.map (fun p => Inauguration.new p.1 p.2))) :=
    (List.perm_insertionSort _ _).trans
      ((hperm.map _).trans (List.perm_insertionSort _ _).symm)
  have hnd2 : ((List.insertionSort (fun a b => a.date ≤ b.date)
      (l.map (fun p => Inauguration.new p.1 p.2))).map (fun x => x.date)).Nodup := by
    have h1 : ((List.insertionSort (fun a b => a.date ≤ b.date)
        (l.map (fun p => Inauguration.new p.1 p.2))).map (fun x => x.date)).Perm
        (l.map Prod.snd) := by
      have h2 := (List.perm_insertionSort (fun a b => a.date ≤ b.date)
        (l.map (fun p => Inauguration.new p.1 p.2))).map (fun x : Inauguration => x.date)
      rw [List.map_map] at h2
      exact h2
    exact (h1.nodup_iff).mpr hnodup
  have hnd1 : ((List.insertionSort (fun a b => a.date ≤ b.date)
      (l'.map (fun p => Inauguration.new p.1 p.2))).map (fun x => x.date)).Nodup :=
    ((hp.map _).nodup_iff).mpr hnd2
  have hs1 := List.sorted_insertionSort (fun a b : Inauguration => a.date ≤ b.date)
    (l'.map (fun p => Inauguration.new p.1 p.2))
  have hs2 := List.sorted_insertionSort (fun a b : Inauguration => a.date ≤ b.date)
    (l.map (fun p => Inauguration.new p.1 p.2))
  exact @List.eq_of_perm_of_sorted Inauguration (fun a b => a.date < b.date) _ _ _ hp
    (pairwise_lt_of_le_nodup _ hs1 hnd1)
    (pairwise_lt_of_le_nodup _ hs2 hnd2)

/-- C4: independent of input order, the table assigns the ordinals of each
label's intervals as exactly 1, 2, 3, ... in chronological order: the table
itself is chronologically sorted, and restricting it to one president and
reading off the `term` fields yields exactly `[1, ..., k]` where `k` is that
president's number of intervals.  Start dates are assumed pairwise distinct
(the table invariant; duplicate starts are claim C8's subject). -/
theorem ordinal_assignment (l l' : List (String × Int))
    (hnodup : (l.map Prod.snd).Nodup) (hperm : l'.Perm l) :
    buildTable l' = buildTable l ∧
      List.Pairwise (fun a b => a.date ≤ b.date) (buildTable l) ∧
      ∀ p : String,
        ((buildTable l).filter (fun x => x.president == p)).map (fun x => x.term)
          = List.range' 1 (l.countP (fun q => q.1 == p)) := by
  refine ⟨buildTable_perm_eq l l' hnodup hperm, buildTable_sorted l, ?_⟩
  intro p
  unfold buildTable assignTerms
  rw [assignTermsAux_filter_term]
  congr 1
  have h1 := (List.perm_insertionSort (fun a b => a.date ≤ b.date)
    (l.map (fun p => Inauguration.new p.1 p.2))).countP_eq
    (fun x : Inauguration => x.president == p)
  rw [h1, List.countP_map]
  rfl

theorem ordinal_assignment_witness :
    ((buildTable [("A", 10), ("B", 20), ("A", 0)]).filter
        (fun x => x.president == "A")).map (fun x => x.term)
      = List.range' 1 2 :=
  (ordinal_assignment [("A", 10), ("B", 20), ("A", 0)] [("B", 20), ("A", 0), ("A", 10)]
    (by decide) (by decide)).2.2 "A"

end OrdinalLemmas

section TermEndLemmas

theorem mapWithIndex_length (f : Nat → Inauguration → Inauguration) :
    ∀ (i : Nat) (l : List Inauguration), (mapWithIndex f i l).length = l.length := by
  intro i l
  induction l generalizing i with
  | nil => rfl
  | cons x xs ih => simp [mapWithIndex, ih]

theorem mapWithIndex_get? (f : Nat → Inauguration → Inauguration) :
    ∀ (l : List Inauguration) (i j : Nat),
      (mapWithIndex f i l).get? j = (l.get? j).map (f (i + j)) := by
  intro l
  induction l with
  | nil => intro i j; simp [mapWithIndex]
  | cons x xs ih =>
    intro i j
    match j with
    | 0 => simp [mapWithIndex]
    | j + 1 =>
      rw [mapWithIndex]
      simp only [List.get?_cons_succ, ih (i + 1) j]
      have harg : i + 1 + j = i + (j + 1) := by omega
      rw [harg]

theorem passesFilters_none_none (earliest : Int) (x : Inauguration) :
    passesFilters earliest none none x = decide (earliest ≤ x.date) := by
  unfold passesFilters
  by_cases h : x.date < earliest
  · simp [h, show ¬earliest ≤ x.date by omega]
  · simp [h, show earliest ≤ x.date by omega]

/-- C5: in a table with strictly increasing start dates (and no CLI date
filters given), the assignment pass gives every non-last row that is not
skipped by the earliest-date filter a `term_end_days` equal to the exact
day difference to the next row's start, which is non-negative (in fact
positive), and gives such a last row the day difference from its start to
the clock reading `now`. -/
theorem term_end_days_correct (now earliest : Int) (table : List Inauguration)
    (hs : List.Pairwise (fun a b => a.date < b.date) table) :
    (assignTermEnds now earliest none none table).length = table.length ∧
      ∀ j : Nat, j < table.length → earliest ≤ (table.getD j default).date →
        ((∀ hj1 : j + 1 < table.length,
            ((assignTermEnds now earliest none none table).get? j).map
                (fun r => r.term_end_days)
              = some ((table.get ⟨j + 1, hj1⟩).date - (table.getD j default).date) ∧
            0 < (table.get ⟨j + 1, hj1⟩).date - (table.getD j default).date) ∧
          (j + 1 = table.length →
            ((assignTermEnds now earliest none none table).get? j).map
                (fun r => r.term_end_days)
              = some (now - (table.getD j default).date))) := by
  constructor
  · exact mapWithIndex_length _ 0 table
  · intro j hj hjd
    have hget : (assignTermEnds now earliest none none table).get? j
        = (table.get? j).map
            (fun x => if passesFilters earliest none none x
              then assignOne now table j x else x) := by
      unfold assignTermEnds
      rw [mapWithIndex_get?]
      simp
    have hx : table.get? j = some (table.getD j default) := by
      rw [List.get?_eq_get hj, List.getD_eq_get _ _ hj]
    have hpass : passesFilters earliest none none (table.getD j default) = true := by
      rw [passesFilters_none_none]
      simp only [decide_eq_true_eq]
      exact hjd
    constructor
    · intro hj1
      have hnext : table.get? (j + 1) = some (table.get ⟨j + 1, hj1⟩) :=
        List.get?_eq_get hj1
      have hlt : (table.getD j default).date < (table.get ⟨j + 1, hj1⟩).date := by
        rw [List.getD_eq_get _ _ hj]
        exact List.pairwise_iff_get.mp hs ⟨j, hj⟩ ⟨j + 1, hj1⟩ (by simp)
      constructor
      · rw [hget, hx]
        simp only [Option.map_some']
        rw [hpass]
        simp only [if_true]
        unfold assignOne
        rw [hnext]
      · omega
    · intro hj1
      have hnext : table.get? (j + 1) = none := by
        rw [List.get?_eq_none]
        omega
      rw [hget, hx]
      simp only [Option.map_some']
      rw [hpass]
      simp only [if_true]
      unfold assignOne
      rw [hnext]

theorem term_end_days_correct_witness :
    ((assignTermEnds 100 5 none none [⟨"A", 1, 0, 10⟩, ⟨"B", 1, 0, 20⟩]).get? 0).map
        (fun r => r.term_end_days) = some (10 : Int) ∧
      ((assignTermEnds 100 5 none none [⟨"A", 1, 0, 10⟩, ⟨"B", 1, 0, 20⟩]).get? 1).map
        (fun r => r.term_end_days) = some (80 : Int) := by
  have h := term_end_days_correct 100 5 [⟨"A", 1, 0, 10⟩, ⟨"B", 1, 0, 20⟩]
    (by decide)
  constructor
  · have h0 := ((h.2 0 (by decide) (by decide)).1 (by decide)).1
    simpa using h0
  · have h1 := (h.2 1 (by decide) (by decide)).2 (by decide)
    simpa using h1

end TermEndLemmas

section EarliestLemmas

theorem minDateStep_foldl :
    ∀ (ds : List Int) (m : Int), ∃ m2,
      ds.foldl minDateStep (some m) = some m2 ∧ m2 ≤ m ∧
        (∀ d ∈ ds, m2 ≤ d) ∧ (m2 = m ∨ m2 ∈ ds) := by
  intro ds
  induction ds with
  | nil => intro m; exact ⟨m, rfl, le_refl m, by simp, Or.inl rfl⟩
  | cons d ds ih =>
    intro m
    rw [List.foldl_cons]
    by_cases hd : d < m
    · have hstep : minDateStep (some m) d = some d := by
        show (if d < m then some d else some m) = some d
        rw [if_pos hd]
      rw [hstep]
      obtain ⟨m2, heq, hle, hall, hmem⟩ := ih d
      refine ⟨m2, heq, by omega, ?_, ?_⟩
      · intro d2 hd2
        rcases List.mem_cons.mp hd2 with h | h
        · omega
        · exact hall d2 h
      · rcases hmem with h | h
        · exact Or.inr (by simp [h])
        · exact Or.inr (List.mem_cons_of_mem d h)
    · have hstep : minDateStep (some m) d = some m := by
        show (if d < m then some d else some m) = some m
        rw [if_neg hd]
      rw [hstep]
      obtain ⟨m2, heq, hle, hall, hmem⟩ := ih m
      refine ⟨m2, heq, hle, ?_, ?_⟩
      · intro d2 hd2
        rcases List.mem_cons.mp hd2 with h | h
        · omega
        · exact hall d2 h
      · rcases hmem with h | h
        · exact Or.inl h
        · exact Or.inr (List.mem_cons_of_mem d h)

/-- C10: with at least one document, the earliest document date `m` is
correctly tracked (it is one of the document dates and bounds them all),
every table row starting at or after `m` contributes its entry to the term
list, the count table and the cumulative-series list, and every table row
starting strictly before `m` is omitted from the filtered table — without
any error value being produced anywhere. -/
theorem earliest_filter_correct (docs : List Int) (hne : docs ≠ [])
    (now : Int) (table : List Inauguration)
    (freq : String → Nat → Nat) (counts : String → Nat) :
    ∃ m, minDate docs = some m ∧ m ∈ docs ∧ (∀ d ∈ docs, m ≤ d) ∧
      (∀ x ∈ assignTermEnds now m none none table,
        (m ≤ x.date →
          x ∈ filteredTable now m none none table ∧
            termKey x ∈ termList now m none none table ∧
            (termKey x, counts (termKey x)) ∈ tableData counts now m none none table ∧
            (termKey x, buildSeries (freq (termKey x)) x.term_end_days)
              ∈ seriesList freq none now m none none table) ∧
        (x.date < m → x ∉ filteredTable now m none none table)) ∧
      ∀ k ∈ termList now m none none table,
        ∃ y ∈ filteredTable now m none none table, termKey y = k ∧ m ≤ y.date := by
  match docs, hne with
  | d :: ds, _ =>
    have hmin : minDate (d :: ds) = ds.foldl minDateStep (some d) := by
      unfold minDate
      rw [List.foldl_cons]
      rfl
    obtain ⟨m, heq, hle, hall, hmem⟩ := minDateStep_foldl ds d
    refine ⟨m, by rw [hmin, heq], ?_, ?_, ?_, ?_⟩
    · rcases hmem with h | h
      · simp [h]
      · exact List.mem_cons_of_mem d h
    · intro d2 hd2
      rcases List.mem_cons.mp hd2 with h | h
      · omega
      · exact hall d2 h
    · intro x hx
      constructor
      · intro hxm
        have hfil : x ∈ filteredTable now m none none table := by
          unfold filteredTable
          refine List.mem_filter.mpr ⟨hx, ?_⟩
          rw [passesFilters_none_none]
          simpa using hxm
        refine ⟨hfil, ?_, ?_, ?_⟩
        · exact List.mem_map_of_mem termKey hfil
        · exact List.mem_map_of_mem (fun k => (k, counts k))
            (List.mem_map_of_mem termKey hfil)
        · unfold seriesList
          refine List.mem_map_of_mem _ (List.mem_filter.mpr ⟨hfil, rfl⟩)
      · intro hxm hcontra
        have hpass := (List.mem_filter.mp hcontra).2
        rw [passesFilters_none_none] at hpass
        simp only [decide_eq_true_eq] at hpass
        omega
    · intro k hk
      obtain ⟨y, hy, hky⟩ := List.mem_map.mp hk
      have hpass := (List.mem_filter.mp hy).2
      rw [passesFilters_none_none] at hpass
      simp only [decide_eq_true_eq] at hpass
      exact ⟨y, hy, hky, hpass⟩

theorem earliest_filter_correct_witness :
    ∃ m, minDate [5, 3, 7] = some m ∧ m ∈ [5, 3, 7] ∧ (∀ d ∈ [5, 3, 7], m ≤ d) ∧
      (∀ x ∈ assignTermEnds 100 m none none [⟨"A", 1, 0, 10⟩],
        (m ≤ x.date →
          x ∈ filteredTable 100 m none none [⟨"A", 1, 0, 10⟩] ∧
            termKey x ∈ termList 100 m none none [⟨"A", 1, 0, 10⟩] ∧
            (termKey x, (fun _ => 0) (termKey x))
              ∈ tableData (fun _ => 0) 100 m none none [⟨"A", 1, 0, 10⟩] ∧
            (termKey x, buildSeries ((fun _ _ => 0) (termKey x)) x.term_end_days)
              ∈ seriesList (fun _ _ => 0) none 100 m none none [⟨"A", 1, 0, 10⟩]) ∧
        (x.date < m → x ∉ filteredTable 100 m none none [⟨"A", 1, 0, 10⟩])) ∧
      ∀ k ∈ termList 100 m none none [⟨"A", 1, 0, 10⟩],
        ∃ y ∈ filteredTable 100 m none none [⟨"A", 1, 0, 10⟩], termKey y = k ∧ m ≤ y.date :=
  earliest_filter_correct [5, 3, 7] (by decide) 100 [⟨"A", 1, 0, 10⟩]
    (fun _ _ => 0) (fun _ => 0)

end EarliestLemmas

section SearchLemmas

theorem fdiv_two_eq (n : Int) : Int.fdiv n 2 = n / 2 :=
  Int.fdiv_eq_ediv n (by norm_num)

theorem findLoop_succ (arr : List Inauguration) (date : Int) (fuel : Nat)
    (s e idx : Int) :
    findLoop arr date (fuel + 1) s e idx =
      if s ≤ idx ∧ idx ≤ e then
        match pyGet arr idx with
        | none => .err
        | some x =>
          if date < x.date then
            findLoop arr date fuel s (idx - 1) (s + Int.fdiv (idx - 1 - s) 2)
          else if x.date < date then
            findLoop arr date fuel (idx + 1) e ((idx + 1) + Int.fdiv (e - (idx + 1)) 2)
          else .found x
      else .exit s e idx := by
  rfl

theorem pyGet_nonneg (arr : List Inauguration) (i : Int) (h0 : 0 ≤ i)
    (hl : i < (arr.length : Int)) : pyGet arr i = some (dAt arr i.toNat) := by
  unfold pyGet
  rw [if_pos h0]
  have hn : i.toNat < arr.length := by omega
  rw [List.get?_eq_get hn]
  unfold dAt
  rw [List.getD_eq_get _ _ hn]

theorem pyGet_neg_wrap (arr : List Inauguration) (i : Int) (h0 : i < 0)
    (hl : 0 ≤ i + (arr.length : Int)) :
    pyGet arr i = some (dAt arr (i + (arr.length : Int)).toNat) := by
  unfold pyGet
  rw [if_neg (by omega)]
  rw [if_pos (by exact_mod_cast hl)]
  have hn : (i + (arr.length : Int)).toNat < arr.length := by omega
  rw [List.get?_eq_get hn]
  unfold dAt
  rw [List.getD_eq_get _ _ hn]

theorem dAt_mem (arr : List Inauguration) (j : Nat) (h : j < arr.length) :
    dAt arr j ∈ arr := by
  unfold dAt
  rw [List.getD_eq_get _ _ h]
  exact List.get_mem _ _ _

theorem head_eq_dAt (arr : List Inauguration) (hne : arr ≠ []) :
    arr.head hne = dAt arr 0 := by
  match arr, hne with
  | x :: xs, _ => rfl

theorem getLast_eq_dAt (arr : List Inauguration) (hne : arr ≠ []) :
    arr.getLast hne = dAt arr (arr.length - 1) := by
  have hlen : 0 < arr.length := List.length_pos.mpr hne
  rw [List.getLast_eq_get]
  unfold dAt
  rw [List.getD_eq_get _ _ (by omega)]

theorem mem_iff_dAt (arr : List Inauguration) (y : Inauguration) (hy : y ∈ arr) :
    ∃ j : Nat, j < arr.length ∧ dAt arr j = y := by
  obtain ⟨⟨j, hj⟩, hget⟩ := List.mem_iff_get.mp hy
  refine ⟨j, hj, ?_⟩
  unfold dAt
  rw [List.getD_eq_get _ _ hj]
  exact hget

theorem dAt_mono_of_lt (arr : List Inauguration)
    (hs : List.Pairwise (fun a b => a.date < b.date) arr)
    {i j : Nat} (hij : i ≤ j) (hj : j < arr.length) :
    (dAt arr i).date ≤ (dAt arr j).date := by
  rcases Nat.eq_or_lt_of_le hij with heq | hlt
  · rw [heq]
  · have h := List.pairwise_iff_get.mp hs ⟨i, by omega⟩ ⟨j, hj⟩ hlt
    unfold dAt
    rw [List.getD_eq_get _ _ (show i < arr.length by omega),
      List.getD_eq_get _ _ hj]
    exact le_of_lt h

theorem dAt_mono_of_le (arr : List Inauguration)
    (hs : List.Pairwise (fun a b => a.date ≤ b.date) arr)
    {i j : Nat} (hij : i ≤ j) (hj : j < arr.length) :
    (dAt arr i).date ≤ (dAt arr j).date := by
  rcases Nat.eq_or_lt_of_le hij with heq | hlt
  · rw [heq]
  · have h := List.pairwise_iff_get.mp hs ⟨i, by omega⟩ ⟨j, hj⟩ hlt
    unfold dAt
    rw [List.getD_eq_get _ _ (show i < arr.length by omega),
      List.getD_eq_get _ _ hj]
    exact h

theorem findLoop_no_timeout (arr : List Inauguration) (date : Int) :
    ∀ (fuel : Nat) (s e idx : Int), (e - s + 1).toNat < fuel →
      findLoop arr date fuel s e idx ≠ .timeout := by
  intro fuel
  induction fuel with
  | zero => intro s e idx h; exact absurd h (by omega)
  | succ fuel ih =>
    intro s e idx h
    rw [findLoop_succ]
    by_cases hc : s ≤ idx ∧ idx ≤ e
    · rw [if_pos hc]
      cases hpy : pyGet arr idx with
      | none => simp [hpy]
      | some x =>
        simp only [hpy]
        by_cases h1 : date < x.date
        · rw [if_pos h1]
          exact ih _ _ _ (by omega)
        · rw [if_neg h1]
          by_cases h2 : x.date < date
          · rw [if_pos h2]
            exact ih _ _ _ (by omega)
          · rw [if_neg h2]
            simp
    · rw [if_neg hc]
      simp

end SearchLemmas

section SearchSpec

theorem findLoop_succ_some (arr : List Inauguration) (date : Int) (fuel : Nat)
    (s e idx : Int) (x : Inauguration) (hc : s ≤ idx ∧ idx ≤ e)
    (hpy : pyGet arr idx = some x) :
    findLoop arr date (fuel + 1) s e idx =
      if date < x.date then
        findLoop arr date fuel s (idx - 1) (s + Int.fdiv (idx - 1 - s) 2)
      else if x.date < date then
        findLoop arr date fuel (idx + 1) e ((idx + 1) + Int.fdiv (e - (idx + 1)) 2)
      else .found x := by
  rw [findLoop_succ, if_pos hc, hpy]

theorem findLoop_succ_exit (arr : List Inauguration) (date : Int) (fuel : Nat)
    (s e idx : Int) (hc : ¬(s ≤ idx ∧ idx ≤ e)) :
    findLoop arr date (fuel + 1) s e idx = .exit s e idx := by
  rw [findLoop_succ, if_neg hc]

theorem findLoop_spec (arr : List Inauguration) (date : Int)
    (hs : List.Pairwise (fun a b => a.date < b.date) arr) :
    ∀ (fuel : Nat) (s e idx : Int),
      (e - s + 1).toNat < fuel → 0 ≤ s → e < (arr.length : Int) →
      ((s ≤ idx ∧ idx ≤ e) ∨ (e = s - 1 ∧ idx = s - 1 ∧ s ≤ (arr.length : Int))) →
      belowLT arr date s → aboveGT arr date e →
      (∃ x, findLoop arr date fuel s e idx = .found x ∧ x ∈ arr ∧ x.date = date) ∨
      (∃ a : Int, findLoop arr date fuel s e idx = .exit a (a - 1) (a - 1) ∧
        0 ≤ a ∧ a ≤ (arr.length : Int) ∧ belowLT arr date a ∧ aboveGT arr date (a - 1)) := by
  intro fuel
  induction fuel with
  | zero => intro s e idx hf; exact fun _ _ _ _ _ => absurd hf (by omega)
  | succ fuel ih =>
    intro s e idx hf hs0 he hshape hb ha
    rcases hshape with ⟨hsi, hie⟩ | ⟨he1, hi1, hsl⟩
    · have h0i : 0 ≤ idx := by omega
      have hil : idx < (arr.length : Int) := by omega
      rw [findLoop_succ_some arr date fuel s e idx _ ⟨hsi, hie⟩
        (pyGet_nonneg arr idx h0i hil)]
      by_cases h1 : date < (dAt arr idx.toNat).date
      · rw [if_pos h1]
        have ha2 : aboveGT arr date (idx - 1) := by
          intro j hj hgt
          exact lt_of_lt_of_le h1
            (dAt_mono_of_lt arr hs (show idx.toNat ≤ j by omega) hj)
        by_cases h2 : s ≤ idx - 1
        · exact ih s (idx - 1) (s + Int.fdiv (idx - 1 - s) 2) (by omega) hs0 (by omega)
            (Or.inl ⟨by rw [fdiv_two_eq]; omega, by rw [fdiv_two_eq]; omega⟩) hb ha2
        · exact ih s (idx - 1) (s + Int.fdiv (idx - 1 - s) 2) (by omega) hs0 (by omega)
            (Or.inr ⟨by omega, by rw [fdiv_two_eq]; omega, by omega⟩) hb ha2
      · rw [if_neg h1]
        by_cases h2 : (dAt arr idx.toNat).date < date
        · rw [if_pos h2]
          have hb2 : belowLT arr date (idx + 1) := by
            intro j hj hlt2
            exact lt_of_le_of_lt
              (dAt_mono_of_lt arr hs (show j ≤ idx.toNat by omega)
                (show idx.toNat < arr.length by omega)) h2
          by_cases h3 : idx + 1 ≤ e
          · exact ih (idx + 1) e ((idx + 1) + Int.fdiv (e - (idx + 1)) 2) (by omega)
              (by omega) he
              (Or.inl ⟨by rw [fdiv_two_eq]; omega, by rw [fdiv_two_eq]; omega⟩) hb2 ha
          · exact ih (idx + 1) e ((idx + 1) + Int.fdiv (e - (idx + 1)) 2) (by omega)
              (by omega) he
              (Or.inr ⟨by omega, by rw [fdiv_two_eq]; omega, by omega⟩) hb2 ha
        · have hxd : (dAt arr idx.toNat).date = date := by omega
          rw [if_neg h2]
          exact Or.inl ⟨dAt arr idx.toNat, rfl, dAt_mem arr idx.toNat (by omega), hxd⟩
    · rw [findLoop_succ_exit arr date fuel s e idx (by omega)]
      right
      refine ⟨s, ?_, hs0, hsl, hb, ?_⟩
      · rw [he1, hi1]
      · rw [← he1]
        exact ha

/-- C1: on a table with strictly increasing start dates, for every date at
or after the first start, `find_inauguration` returns exactly one row of the
table, and that row's start is the greatest start less than or equal to the
date (this covers the exact-hit case, the strictly-between case, and dates
at or after the last start). -/
theorem find_inauguration_locates (arr : List Inauguration) (date : Int)
    (hne : arr ≠ []) (hs : List.Pairwise (fun a b => a.date < b.date) arr)
    (hd : (arr.head hne).date ≤ date) :
    ∃ x, find_inauguration arr date = some x ∧ x ∈ arr ∧ x.date ≤ date ∧
      ∀ y ∈ arr, y.date ≤ date → y.date ≤ x.date := by
  have hlen : 0 < arr.length := List.length_pos.mpr hne
  have hspec := findLoop_spec arr date hs (arr.length + 1) 0 ((arr.length : Int) - 1)
    (Int.fdiv (arr.length : Int) 2) (by omega) (by omega) (by omega)
    (Or.inl ⟨by rw [fdiv_two_eq]; omega, by rw [fdiv_two_eq]; omega⟩)
    (fun j hj hlt => absurd hlt (by omega))
    (fun j hj hgt => absurd hgt (by omega))
  unfold find_inauguration
  rcases hspec with ⟨x, heq, hmem, hxd⟩ | ⟨a, heq, ha0, hal, hbel, habv⟩
  · simp only [heq]
    exact ⟨x, rfl, hmem, le_of_eq hxd, fun y hy hyd => by rw [hxd]; exact hyd⟩
  · simp only [heq]
    have ha1 : 1 ≤ a := by
      by_contra hlt
      have h0 := habv 0 hlen (by omega)
      rw [head_eq_dAt arr hne] at hd
      omega
    have hif : ((a - 1) - a ≤ 1) := by omega
    rw [if_pos hif]
    rw [pyGet_nonneg arr (a - 1) (by omega) (by omega)]
    refine ⟨dAt arr (a - 1).toNat, rfl, dAt_mem _ _ (by omega), ?_, ?_⟩
    · have hlt := hbel (a - 1).toNat (by omega) (by omega)
      omega
    · intro y hy hyd
      obtain ⟨j, hj, hdy⟩ := mem_iff_dAt arr y hy
      by_cases hja : (j : Int) < a
      · have hmono := dAt_mono_of_lt arr hs (show j ≤ (a - 1).toNat by omega)
          (show (a - 1).toNat < arr.length by omega)
        rw [hdy] at hmono
        exact hmono
      · have hgt := habv j hj (by omega)
        rw [hdy] at hgt
        omega

theorem find_inauguration_locates_witness :
    ∃ x, find_inauguration [⟨"A", 1, 0, 10⟩, ⟨"B", 1, 0, 20⟩] 15 = some x ∧
      x ∈ ([⟨"A", 1, 0, 10⟩, ⟨"B", 1, 0, 20⟩] : List Inauguration) ∧ x.date ≤ 15 ∧
      ∀ y ∈ ([⟨"A", 1, 0, 10⟩, ⟨"B", 1, 0, 20⟩] : List Inauguration),
        y.date ≤ 15 → y.date ≤ x.date :=
  find_inauguration_locates [⟨"A", 1, 0, 10⟩, ⟨"B", 1, 0, 20⟩] 15
    (by decide) (by decide) (by decide)

end SearchSpec

section PredateLemmas

theorem findLoop_all_above (arr : List Inauguration) (date : Int)
    (hall : ∀ j : Nat, j < arr.length → date < (dAt arr j).date) :
    ∀ (fuel : Nat) (e idx : Int), (e + 1).toNat < fuel → e < (arr.length : Int) →
      ((0 ≤ idx ∧ idx ≤ e) ∨ (e = -1 ∧ idx = -1)) →
      findLoop arr date fuel 0 e idx = .exit 0 (-1) (-1) := by
  intro fuel
  induction fuel with
  | zero => intro e idx hf; exact fun _ _ => absurd hf (by omega)
  | succ fuel ih =>
    intro e idx hf he hshape
    rcases hshape with ⟨h0, hie⟩ | ⟨he1, hi1⟩
    · have hil : idx < (arr.length : Int) := by omega
      rw [findLoop_succ_some arr date fuel 0 e idx _ ⟨h0, hie⟩
        (pyGet_nonneg arr idx h0 hil)]
      have h1 : date < (dAt arr idx.toNat).date := hall idx.toNat (by omega)
      rw [if_pos h1]
      by_cases h2 : 1 ≤ idx
      · exact ih (idx - 1) (0 + Int.fdiv (idx - 1 - 0) 2) (by omega) (by omega)
          (Or.inl ⟨by rw [fdiv_two_eq]; omega, by rw [fdiv_two_eq]; omega⟩)
      · exact ih (idx - 1) (0 + Int.fdiv (idx - 1 - 0) 2) (by omega) (by omega)
          (Or.inr ⟨by omega, by rw [fdiv_two_eq]; omega⟩)
    · rw [findLoop_succ_exit arr date fuel 0 e idx (by omega)]
      rw [he1, hi1]

/-- C9: on a nonempty sorted table, a date strictly before the first start
makes the binary search drive its index to -1; Python's negative indexing
then wraps around, so `find_inauguration` silently returns the
chronologically last row, and the day offset later computed for such a
document (`date - interval.start`) is negative. -/
theorem predate_returns_last (arr : List Inauguration) (date : Int)
    (hne : arr ≠ []) (hs : List.Pairwise (fun a b => a.date ≤ b.date) arr)
    (hd : date < (arr.head hne).date) :
    find_inauguration arr date = some (arr.getLast hne) ∧
      date - (arr.getLast hne).date < 0 := by
  have hlen : 0 < arr.length := List.length_pos.mpr hne
  have hall : ∀ j : Nat, j < arr.length → date < (dAt arr j).date := by
    intro j hj
    have hmono := dAt_mono_of_le arr hs (Nat.zero_le j) hj
    rw [head_eq_dAt arr hne] at hd
    omega
  have hloop := findLoop_all_above arr date hall (arr.length + 1)
    ((arr.length : Int) - 1) (Int.fdiv (arr.length : Int) 2) (by omega) (by omega)
    (Or.inl ⟨by rw [fdiv_two_eq]; omega, by rw [fdiv_two_eq]; omega⟩)
  constructor
  · unfold find_inauguration
    simp only [hloop]
    rw [if_pos (show (-1 : Int) - 0 ≤ 1 by omega)]
    rw [pyGet_neg_wrap arr (-1) (by omega) (by omega)]
    have hidx : ((-1 : Int) + (arr.length : Int)).toNat = arr.length - 1 := by omega
    rw [hidx, getLast_eq_dAt arr hne]
  · have hlast := hall (arr.length - 1) (by omega)
    rw [getLast_eq_dAt arr hne]
    omega

theorem predate_returns_last_witness :
    find_inauguration [⟨"A", 1, 0, 10⟩, ⟨"B", 1, 0, 20⟩] 5
        = some (([⟨"A", 1, 0, 10⟩, ⟨"B", 1, 0, 20⟩] : List Inauguration).getLast
          (by decide)) ∧
      (5 : Int) - (([⟨"A", 1, 0, 10⟩, ⟨"B", 1, 0, 20⟩] :
        List Inauguration).getLast (by decide)).date < 0 :=
  predate_returns_last [⟨"A", 1, 0, 10⟩, ⟨"B", 1, 0, 20⟩] 5
    (by decide) (by decide) (by decide)

/-- C2 (actual code behavior at the failing input): for a one-row table
starting at day 100, a document dated day 99 — which precedes every
interval — is not reported as any kind of failure: the locator silently
returns that (chronologically last) row and the day offset computed for the
document is negative.  The `raise IndexError` branch of `find_inauguration`
is unreachable, so no error can be surfaced for such documents. -/
theorem predate_silently_misattributed :
    find_inauguration [⟨"A", 1, 1461, 100⟩] 99 = some ⟨"A", 1, 1461, 100⟩ ∧
      (99 : Int) - 100 < 0 := by
  constructor
  · decide
  · decide

/-- C7: the binary-search loop of `find_inauguration` always terminates:
from any state whose inclusive window `[s, e]` has size below the budget,
the loop finishes within the budget (the window shrinks strictly every
iteration), and in particular the budget `length + 1` used by
`find_inauguration` is never exhausted — for any table, including sizes 1
and 2, and any date. -/
theorem find_loop_terminates (arr : List Inauguration) (date : Int)
    (hne : arr ≠ []) (hs : List.Pairwise (fun a b => a.date ≤ b.date) arr) :
    (∀ (fuel : Nat) (s e idx : Int), (e - s + 1).toNat < fuel →
        findLoop arr date fuel s e idx ≠ .timeout) ∧
      findLoop arr date (arr.length + 1) 0 ((arr.length : Int) - 1)
        (Int.fdiv (arr.length : Int) 2) ≠ .timeout := by
  refine ⟨findLoop_no_timeout arr date, ?_⟩
  exact findLoop_no_timeout arr date (arr.length + 1) 0 ((arr.length : Int) - 1)
    (Int.fdiv (arr.length : Int) 2) (by omega)

theorem find_loop_terminates_witness :
    findLoop [⟨"A", 1, 0, 0⟩] 5 (([⟨"A", 1, 0, 0⟩] : List Inauguration).length + 1) 0
        ((([⟨"A", 1, 0, 0⟩] : List Inauguration).length : Int) - 1)
        (Int.fdiv ((([⟨"A", 1, 0, 0⟩] : List Inauguration).length : Int)) 2)
      ≠ .timeout :=
  (find_loop_terminates [⟨"A", 1, 0, 0⟩] 5 (by decide) (by decide)).2

end PredateLemmas
